import Mathlib

/-
  Verification of the brungo route-extraction pipeline.

  Shallow embedding of the Go source (parse.go, bruno.go, the Route data
  model) into Lean.  Source files are modeled as already-parsed declaration
  lists (the repo itself delegates syntax parsing to go/parser); comment
  lines are modeled as character sequences without newline characters, as
  produced by go/ast for line comments, and byte indices coincide with
  character indices for the ASCII annotation text the tool processes.
  Struct tags are modeled as already-lexed key/value pair lists; the call
  to reflect.StructTag.Lookup is modeled as first-match association lookup,
  which is its documented behavior on conventional tag strings.
-/

namespace Brungo

/-- Whitespace class of the Go regexp escape sequence for spaces
(tab, newline, form feed, carriage return, space). -/
def isSpaceRE (c : Char) : Bool :=
  c == ' ' || c == '\t' || c == '\n' || c == '\x0c' || c == '\x0d'

/-- Whitespace recognized by strings.TrimSpace (ASCII part of unicode.IsSpace). -/
def isSpaceTrim (c : Char) : Bool :=
  c == ' ' || c == '\t' || c == '\n' || c == '\x0b' || c == '\x0c' || c == '\x0d'

/-- Character class of the uppercase letters, as in the route regexp. -/
def isUpperAZ (c : Char) : Bool := 'A' ≤ c && c ≤ 'Z'

/-- Character class of the word characters of the Go regexp (ASCII letters, digits, underscore). -/
def isWordChar (c : Char) : Bool := c.isAlphanum || c == '_'

/-- strings.TrimSpace on a character sequence. -/
def trimSpaceL (s : List Char) : List Char :=
  ((s.dropWhile isSpaceTrim).reverse.dropWhile isSpaceTrim).reverse

/-- strings.ReplaceAll of the slash by the empty string, as used on description text. -/
def removeSlash (s : List Char) : List Char := s.filter (fun c => c ≠ '/')

/-- strings.TrimPrefix on character sequences. -/
def trimPrefixL (pre s : List Char) : List Char :=
  if pre.isPrefixOf s then s.drop pre.length else s

/-- strings.Index followed by the split at the end of the first occurrence of
the pattern: returns the text before the occurrence and the text after it,
or none when the pattern does not occur. -/
def splitAtSubstr (pat : List Char) : List Char → Option (List Char × List Char)
  | [] => none
  | c :: rest =>
    if pat.isPrefixOf (c :: rest) then some ([], (c :: rest).drop pat.length)
    else
      match splitAtSubstr pat rest with
      | some pr => some (c :: pr.1, pr.2)
      | none => none

/-- Whether a pattern occurs as a contiguous subsequence (strings.Contains). -/
def occursSub (pat : List Char) : List Char → Bool
  | [] => pat.isEmpty
  | c :: rest => pat.isPrefixOf (c :: rest) || occursSub pat rest

/-- strings.IndexAny with a one-character set: index of the first occurrence of the character. -/
def indexOfChar (c : Char) : List Char → Option Nat
  | [] => none
  | d :: rest => if d == c then some 0 else (indexOfChar c rest).map (· + 1)

/-- Leftmost-match regexp search for a pattern anchored by a literal: at each
occurrence of the literal, from left to right, attempt the continuation on the
text after the literal; the first success is the match, as in RE2 leftmost
matching for patterns beginning with a literal. -/
def scanFor {α : Type} (pat : List Char) (f : List Char → Option α) : List Char → Option α
  | [] => none
  | c :: rest =>
    if pat.isPrefixOf (c :: rest) then
      match f ((c :: rest).drop pat.length) with
      | some v => some v
      | none => scanFor pat f rest
    else scanFor pat f rest

/-- Continuation for a regexp tail of one-or-more spaces followed by a
one-or-more-any-characters capture: on single-line text this succeeds exactly
when the text starts with whitespace and has at least two characters, the
capture being everything after the whitespace run, backtracking into the run
when it reaches the end of the line. -/
def wsThenRest (t : List Char) : Option (List Char) :=
  let w := (t.takeWhile isSpaceRE).length
  if w = 0 then none
  else if t.length < 2 then none
  else some (t.drop (min w (t.length - 1)))

/-- Continuation for the route pattern tail: one-or-more spaces, an uppercase
METHOD capture, one-or-more spaces, and a path capture to the end of the line. -/
def tryRoute (tail : List Char) : Option (List Char × List Char) :=
  let w1 := (tail.takeWhile isSpaceRE).length
  if w1 = 0 then none
  else
    let t1 := tail.drop w1
    let m := t1.takeWhile isUpperAZ
    if m = [] then none
    else
      match wsThenRest (t1.drop m.length) with
      | some p => some (m, p)
      | none => none

/-- Continuation for the body pattern tail: one-or-more spaces then a word capture. -/
def tryBody (tail : List Char) : Option (List Char) :=
  let w := (tail.takeWhile isSpaceRE).length
  if w = 0 then none
  else
    let t1 := tail.drop w
    let b := t1.takeWhile isWordChar
    if b = [] then none else some b

/-- The literal of the name annotation. -/
def nameTag : List Char := ("@name").toList

/-- The literal of the route annotation. -/
def routeTag : List Char := ("@route").toList

/-- The literal of the body annotation. -/
def bodyTag : List Char := ("@body").toList

/-- The literal of the description annotation. -/
def descriptionTag : List Char := ("@description").toList

/-- namePattern.FindStringSubmatch: capture of the name annotation, if the line matches. -/
def nameMatch (line : List Char) : Option (List Char) := scanFor nameTag wsThenRest line

/-- routePattern.FindStringSubmatch: method and path captures of the route annotation. -/
def routeMatch (line : List Char) : Option (List Char × List Char) :=
  scanFor routeTag tryRoute line

/-- bodyPattern.FindStringSubmatch: capture of the body annotation. -/
def bodyMatch (line : List Char) : Option (List Char) := scanFor bodyTag tryBody line

/-- The annotation map built by extractAnnotations: the route method and path
are always written together by the same pattern match, so they are stored as
one optional pair; the description entry accumulates text. -/
structure Annotations where
  name : Option (List Char)
  route : Option (List Char × List Char)
  body : Option (List Char)
  description : List Char
deriving DecidableEq, Repr

/-- The newline appended after every accumulated description line. -/
def nl : Char := '\n'

/-- Cleaning applied to each description line: remove every slash, then trim whitespace. -/
def cleanDesc (s : List Char) : List Char := trimSpaceL (removeSlash s)

/-- One step of the description accumulation of extractAnnotations: given the
accumulated description, the parsingDescription flag and the comment line,
produce the new accumulated description and flag. -/
def descStep (desc : List Char) (parsing : Bool) (text : List Char) : List Char × Bool :=
  match splitAtSubstr descriptionTag text with
  | some pr =>
    match indexOfChar '@' pr.2 with
    | some j => (desc ++ cleanDesc (pr.2.take j) ++ [nl], false)
    | none => (desc ++ cleanDesc pr.2 ++ [nl], true)
  | none =>
    if parsing then
      match indexOfChar '@' text with
      | some j => (desc ++ cleanDesc (text.take j) ++ [nl], false)
      | none => (desc ++ cleanDesc text ++ [nl], true)
    else (desc, parsing)

/-- Processing of one comment line by extractAnnotations: each single-line
pattern overwrites its entry on a match, and the description state machine
advances. -/
def annotateLine (st : Annotations × Bool) (text : List Char) : Annotations × Bool :=
  let a := st.1
  let ds := descStep a.description st.2 text
  ({ name := match nameMatch text with | some v => some v | none => a.name,
     route := match routeMatch text with | some mp => some mp | none => a.route,
     body := match bodyMatch text with | some b => some b | none => a.body,
     description := ds.1 }, ds.2)

/-- extractAnnotations: fold the line processor over the comment lines of one
doc comment, starting from the empty annotation map. -/
def extractAnnotations (comments : List (List Char)) : Annotations :=
  (comments.foldl annotateLine ({ name := none, route := none, body := none, description := [] }, false)).1

/-- A function declaration as delivered by the Go parser: its identifier and
its optional doc comment, one entry per comment line. -/
structure FuncDecl where
  name : String
  doc : Option (List (List Char))
deriving DecidableEq, Repr

/-- The shape of a struct field type expression, as inspected by ParseStructFromFile:
a bare identifier, a selector (qualified) expression, an array type, a map type,
or anything else. -/
inductive FieldTypeExpr where
  | ident (name : String)
  | selector (sel : String)
  | arrayType
  | mapType
  | otherType
deriving DecidableEq, Repr

/-- One struct field declaration: its identifier list, type expression, optional
already-lexed tag pairs and optional doc comment lines. -/
structure FieldDecl where
  names : List String
  fieldType : FieldTypeExpr
  tag : Option (List (String × String))
  doc : Option (List (List Char))
deriving DecidableEq, Repr

/-- The body of a type specification: a struct with fields, or any other type. -/
inductive TypeSpecBody where
  | structBody (fields : List FieldDecl)
  | otherBody
deriving DecidableEq, Repr

/-- A type specification: its name and body. -/
structure TypeSpec where
  name : String
  body : TypeSpecBody
deriving DecidableEq, Repr

/-- A parsed Go file: its function declarations and type specifications in
source (pre-order traversal) order. -/
structure GoFile where
  funcs : List FuncDecl
  typeSpecs : List TypeSpec
deriving DecidableEq, Repr

/-- A source file of the scanned tree: either it parses to a GoFile, or the
Go parser rejects it with an error message. -/
inductive SrcFile where
  | ok (f : GoFile)
  | bad (msg : String)
deriving DecidableEq, Repr

/-- One field of a resolved request body (RequestBodyField in the Go source). -/
structure RequestBodyField where
  name : String
  fieldType : String
  jsonName : String
  required : Bool
  description : String
  tags : List (String × String)
deriving DecidableEq, Repr

/-- A resolved request body (RequestBody in the Go source). -/
structure RequestBody where
  typeName : String
  fields : List RequestBodyField
  description : String
deriving DecidableEq, Repr

/-- A discovered route (Route in the Go source). -/
structure Route where
  name : String
  method : String
  path : String
  handler : String
  description : String
  bodyType : String
  tags : List (String × String)
  requestBody : Option RequestBody
deriving DecidableEq, Repr

/-- The semanticType string computed by the type switch of ParseStructFromFile. -/
def fieldTypeString : FieldTypeExpr → String
  | FieldTypeExpr.ident n => n
  | FieldTypeExpr.selector s => s
  | FieldTypeExpr.arrayType => ("array")
  | FieldTypeExpr.mapType => ("map")
  | FieldTypeExpr.otherType => ("unknown")

/-- strings.Split with the one-character comma separator of the json tag
parsing, on character sequences: splitting the empty text yields one empty
segment, as Go's Split never returns an empty list for a nonempty separator. -/
def splitOnChar (sep : Char) : List Char → List (List Char)
  | [] => [[]]
  | c :: rest =>
    if c == sep then [] :: splitOnChar sep rest
    else
      match splitOnChar sep rest with
      | seg :: segs => (c :: seg) :: segs
      | [] => [[c]]

/-- reflect.StructTag.Lookup on the modeled tag pairs (first match wins), with
the nil-tag guard of the source folded in. -/
def tagLookup (tag : Option (List (String × String))) (key : String) : Option String :=
  match tag with
  | none => none
  | some pairs => (pairs.find? (fun kv => kv.1 == key)).map (fun kv => kv.2)

/-- The literal of the line comment marker stripped from field doc comments. -/
def slashSlash : List Char := ("//").toList

/-- The field description built by ParseStructFromFile: each comment line with
the line marker prefix removed and trimmed, joined by a single space whenever
the accumulator is nonempty. -/
def fieldDocString (doc : Option (List (List Char))) : String :=
  match doc with
  | none => ("")
  | some lines =>
    String.mk (lines.foldl
      (fun acc line =>
        let text := trimSpaceL (trimPrefixL slashSlash line)
        if acc = [] then acc ++ text else acc ++ [' '] ++ text)
      [])

/-- The per-field normalization of ParseStructFromFile: skip fields without an
identifier, name the field after its first identifier, compute the type string,
read the json tag (first comma-delimited segment, when nonempty, overrides the
wire name), the binding tag (containing the required token), and the doc comment. -/
def buildField (fld : FieldDecl) : Option RequestBodyField :=
  match fld.names with
  | [] => none
  | fieldName :: _ =>
    let jsonTag := tagLookup fld.tag ("json")
    let bindingTag := tagLookup fld.tag ("binding")
    let jsonName :=
      match jsonTag with
      | some v =>
        if (splitOnChar ',' v.toList).headD [] ≠ [] then
          String.mk ((splitOnChar ',' v.toList).headD [])
        else fieldName
      | none => fieldName
    let required :=
      match bindingTag with
      | some b => occursSub (("required").toList) b.toList
      | none => false
    let tags :=
      (match jsonTag with | some v => [(("json" : String), v)] | none => []) ++
      (match bindingTag with | some b => [(("binding" : String), b)] | none => [])
    some { name := fieldName, fieldType := fieldTypeString fld.fieldType,
           jsonName := jsonName, required := required,
           description := fieldDocString fld.doc, tags := tags }

/-- Whether a type specification is the struct being searched for: name equality
and a struct body; ParseStructFromFile keeps inspecting past same-named
non-struct specifications. -/
def tsMatches (structName : String) (ts : TypeSpec) : Bool :=
  ts.name == structName &&
    (match ts.body with | TypeSpecBody.structBody _ => true | TypeSpecBody.otherBody => false)

/-- ParseStructFromFile: the first matching struct specification of the file, if
any, normalized into a RequestBody. -/
def parseStructFromFile (f : GoFile) (structName : String) : Option RequestBody :=
  match f.typeSpecs.find? (tsMatches structName) with
  | some ts =>
    match ts.body with
    | TypeSpecBody.structBody fields =>
      some { typeName := structName, fields := fields.filterMap buildField, description := ("") }
    | TypeSpecBody.otherBody => none
  | none => none

/-- FindStruct: walk the tree in file order until the first file containing the
struct; a file that fails to parse before the struct is found aborts with that
parse error; a missing struct is reported as none without an error. -/
def findStruct : List SrcFile → String → Except String (Option RequestBody)
  | [], _ => Except.ok none
  | SrcFile.bad msg :: _, _ => Except.error msg
  | SrcFile.ok f :: rest, structName =>
    match parseStructFromFile f structName with
    | some rb => Except.ok (some rb)
    | none => findStruct rest structName

/-- The route stub built by FindHandlers for one function declaration: none
when the declaration has no doc comment or its annotations carry no route
method and path; otherwise a Route with requestBody left unresolved. -/
def routeOfFuncDecl (fd : FuncDecl) : Option Route :=
  match fd.doc with
  | none => none
  | some commentLines =>
    let a := extractAnnotations commentLines
    match a.route with
    | some mp =>
      some { name := String.mk (a.name.getD []),
             method := String.mk mp.1,
             path := String.mk mp.2,
             handler := fd.name,
             description := String.mk a.description,
             bodyType := String.mk (a.body.getD []),
             tags := [],
             requestBody := none }
    | none => none

/-- FindHandlers restricted to one parsed file: the route stubs of its function
declarations in traversal order. -/
def findHandlersFile (f : GoFile) : List Route := f.funcs.filterMap routeOfFuncDecl

/-- The first pass of ParseDirectory: visit every file once, aborting with the
parse error of the first file that fails to parse, otherwise concatenating the
route stubs in walk order. -/
def findHandlersPhase : List SrcFile → Except String (List Route)
  | [] => Except.ok []
  | SrcFile.bad msg :: _ => Except.error msg
  | SrcFile.ok f :: rest =>
    match findHandlersPhase rest with
    | Except.ok rs => Except.ok (findHandlersFile f ++ rs)
    | Except.error e => Except.error e

/-- The second pass of ParseDirectory: for each route in order, when its body
type name is nonempty, invoke FindStruct and attach a non-nil result.  The
second component logs the type name of every FindStruct invocation, in order,
mirroring a call counter on the resolver. -/
def assembleRoutes (files : List SrcFile) : List Route → Except String (List Route × List String)
  | [] => Except.ok ([], [])
  | r :: rs =>
    if r.bodyType = ("") then
      match assembleRoutes files rs with
      | Except.ok ol => Except.ok (r :: ol.1, ol.2)
      | Except.error e => Except.error e
    else
      match findStruct files r.bodyType with
      | Except.error e => Except.error e
      | Except.ok rb =>
        let r1 := match rb with
          | some b => { r with requestBody := some b }
          | none => r
        match assembleRoutes files rs with
        | Except.ok ol => Except.ok (r1 :: ol.1, r.bodyType :: ol.2)
        | Except.error e => Except.error e

/-- ParseDirectory: discovery pass then assembly pass; any error aborts the run
with no route list. -/
def parseDirectory (files : List SrcFile) : Except String (List Route) :=
  match findHandlersPhase files with
  | Except.error e => Except.error e
  | Except.ok routes =>
    match assembleRoutes files routes with
    | Except.error e => Except.error e
    | Except.ok ol => Except.ok ol.1

/-- A JSON value, the shape of the default body values emitted by the renderer. -/
inductive JSONValue where
  | str (s : String)
  | num (n : Int)
  | bool (b : Bool)
  | arr (xs : List JSONValue)
  | obj (kvs : List (String × JSONValue))
  | null

/-- ASCII lowering of one character, as strings.ToLower acts on ASCII. -/
def toLowerChar (c : Char) : Char :=
  if 'A' ≤ c && c ≤ 'Z' then Char.ofNat (c.toNat + 32) else c

/-- strings.ToLower restricted to ASCII text. -/
def lowerStr (s : String) : String := String.mk (s.toList.map toLowerChar)

/-- The default-value switch of generateRequestJSONBodySection, keyed on the
lowercased field type string. -/
def defaultValue (t : String) : JSONValue :=
  match lowerStr t with
  | "string" => JSONValue.str ("")
  | "int" => JSONValue.num 0
  | "int64" => JSONValue.num 0
  | "int32" => JSONValue.num 0
  | "float64" => JSONValue.num 0
  | "float32" => JSONValue.num 0
  | "bool" => JSONValue.bool false
  | "array" => JSONValue.arr []
  | "slice" => JSONValue.arr []
  | "map" => JSONValue.obj []
  | _ => JSONValue.null

/-- The body map built by generateRequestJSONBodySection: a Go map written once
per field in field order, keyed by the wire name, modeled as a lookup function. -/
def generateRequestJSONBody (requestBody : RequestBody) : String → Option JSONValue :=
  requestBody.fields.foldl
    (fun body fld => fun k => if k = fld.jsonName then some (defaultValue fld.fieldType) else body k)
    (fun _ => none)

/-- The last field of the list carrying a given wire name, the field whose
default survives the last-write-wins map insertion. -/
def lastFieldFor (fields : List RequestBodyField) (k : String) : Option RequestBodyField :=
  fields.foldl (fun acc fld => if k = fld.jsonName then some fld else acc) none

/-! Basic lemmas about the pattern matchers. -/

theorem scanFor_eq_none {α : Type} (pat : List Char) (f : List Char → Option α) :
    ∀ s : List Char, occursSub pat s = false → scanFor pat f s = none := by
  intro s
  induction s with
  | nil => intro _; rfl
  | cons c rest ih =>
    intro h
    rw [occursSub] at h
    rw [Bool.or_eq_false_iff] at h
    rw [scanFor, if_neg (by rw [h.1]; exact Bool.false_ne_true)]
    exact ih h.2

theorem scanFor_some {α : Type} {pat : List Char} {f : List Char → Option α} :
    ∀ {s : List Char} {v : α}, scanFor pat f s = some v → ∃ t, f t = some v := by
  intro s
  induction s with
  | nil => intro v h; exact absurd h (by rw [scanFor]; exact Option.noConfusion)
  | cons c rest ih =>
    intro v h
    rw [scanFor] at h
    by_cases hp : pat.isPrefixOf (c :: rest) = true
    · rw [if_pos hp] at h
      cases hf : f ((c :: rest).drop pat.length) with
      | some w =>
        rw [hf] at h
        exact ⟨(c :: rest).drop pat.length, by rw [hf]; exact h⟩
      | none =>
        rw [hf] at h
        exact ih h
    · rw [if_neg hp] at h
      exact ih h

theorem wsThenRest_ne_nil {t p : List Char} (h : wsThenRest t = some p) : p ≠ [] := by
  unfold wsThenRest at h
  by_cases h0 : (t.takeWhile isSpaceRE).length = 0
  · rw [if_pos h0] at h; exact absurd h Option.noConfusion
  · rw [if_neg h0] at h
    by_cases h1 : t.length < 2
    · rw [if_pos h1] at h; exact absurd h Option.noConfusion
    · rw [if_neg h1] at h
      have h2 : t.drop (min (t.takeWhile isSpaceRE).length (t.length - 1)) = p :=
        Option.some.inj h
      intro hc
      rw [hc] at h2
      have h3 := congrArg List.length h2
      rw [List.length_drop] at h3
      have h4 : min (t.takeWhile isSpaceRE).length (t.length - 1) ≤ t.length - 1 :=
        Nat.min_le_right _ _
      simp at h3
      omega

theorem tryRoute_some {t m p : List Char} (h : tryRoute t = some (m, p)) :
    m ≠ [] ∧ p ≠ [] := by
  unfold tryRoute at h
  by_cases h0 : (t.takeWhile isSpaceRE).length = 0
  · rw [if_pos h0] at h; exact absurd h Option.noConfusion
  · rw [if_neg h0] at h
    by_cases h1 : (t.drop (t.takeWhile isSpaceRE).length).takeWhile isUpperAZ = []
    · rw [if_pos h1] at h; exact absurd h Option.noConfusion
    · rw [if_neg h1] at h
      cases hw : wsThenRest ((t.drop (t.takeWhile isSpaceRE).length).drop
          ((t.drop (t.takeWhile isSpaceRE).length).takeWhile isUpperAZ).length) with
      | some q =>
        rw [hw] at h
        have h2 := Prod.mk.inj (Option.some.inj h)
        constructor
        · rw [← h2.1]; exact h1
        · rw [← h2.2]; exact wsThenRest_ne_nil hw
      | none => rw [hw] at h; exact absurd h Option.noConfusion

theorem routeMatch_some {l m p : List Char} (h : routeMatch l = some (m, p)) :
    m ≠ [] ∧ p ≠ [] := by
  obtain ⟨t, ht⟩ := scanFor_some h
  exact tryRoute_some ht

/-! Projections of one annotation step. -/

theorem annotateLine_route (st : Annotations × Bool) (l : List Char) :
    (annotateLine st l).1.route =
      match routeMatch l with | some mp => some mp | none => st.1.route := rfl

theorem annotateLine_description (st : Annotations × Bool) (l : List Char) :
    (annotateLine st l).1.description = (descStep st.1.description st.2 l).1 := rfl

theorem annotateLine_parsing (st : Annotations × Bool) (l : List Char) :
    (annotateLine st l).2 = (descStep st.1.description st.2 l).2 := rfl

/-- The route entry of the annotation fold is only ever written with nonempty
method and path captures. -/
theorem foldl_route_inv (lines : List (List Char)) :
    ∀ st : Annotations × Bool,
      (∀ m p, st.1.route = some (m, p) → m ≠ [] ∧ p ≠ []) →
      ∀ m p, (lines.foldl annotateLine st).1.route = some (m, p) → m ≠ [] ∧ p ≠ [] := by
  induction lines with
  | nil => intro st hst; exact hst
  | cons l rest ih =>
    intro st hst
    refine ih (annotateLine st l) ?_
    intro m p hmp
    rw [annotateLine_route] at hmp
    cases hr : routeMatch l with
    | some mp =>
      rw [hr] at hmp
      have h2 := Option.some.inj hmp
      have h3 := routeMatch_some hr
      rw [h2] at h3
      exact h3
    | none =>
      rw [hr] at hmp
      exact hst m p hmp

theorem extractAnnotations_route_nonempty {lines : List (List Char)} {m p : List Char}
    (h : (extractAnnotations lines).route = some (m, p)) : m ≠ [] ∧ p ≠ [] := by
  exact foldl_route_inv lines _ (fun m p hc => Option.noConfusion hc) m p h

/-- If no line in the fold carries a route pattern match, the route entry is unchanged. -/
theorem foldl_route_unchanged (lines : List (List Char)) :
    ∀ st : Annotations × Bool, (∀ l ∈ lines, routeMatch l = none) →
      (lines.foldl annotateLine st).1.route = st.1.route := by
  induction lines with
  | nil => intro st _; rfl
  | cons l rest ih =>
    intro st h
    rw [List.foldl_cons]
    rw [ih (annotateLine st l) (fun x hx => h x (List.mem_cons_of_mem l hx))]
    rw [annotateLine_route, h l (List.mem_cons_self l rest)]

theorem string_mk_ne_empty {l : List Char} (h : l ≠ []) : String.mk l ≠ ("") := by
  intro hc
  apply h
  have h2 := congrArg String.data hc
  simpa using h2

/-! Properties of the per-declaration route stub builder. -/

theorem routeOfFuncDecl_method_path {fd : FuncDecl} {r : Route}
    (h : routeOfFuncDecl fd = some r) : r.method ≠ ("") ∧ r.path ≠ ("") := by
  obtain ⟨nm, doc⟩ := fd
  cases doc with
  | none => exact absurd h Option.noConfusion
  | some lines =>
    simp only [routeOfFuncDecl] at h
    split at h
    · rename_i mp hr
      have h2 := Option.some.inj h
      have h3 : mp.1 ≠ [] ∧ mp.2 ≠ [] := extractAnnotations_route_nonempty hr
      rw [← h2]
      exact ⟨string_mk_ne_empty h3.1, string_mk_ne_empty h3.2⟩
    · exact absurd h Option.noConfusion

theorem routeOfFuncDecl_requestBody {fd : FuncDecl} {r : Route}
    (h : routeOfFuncDecl fd = some r) : r.requestBody = none := by
  obtain ⟨nm, doc⟩ := fd
  cases doc with
  | none => exact absurd h Option.noConfusion
  | some lines =>
    simp only [routeOfFuncDecl] at h
    split at h
    · have h2 := Option.some.inj h
      rw [← h2]
    · exact absurd h Option.noConfusion

theorem routeMatch_eq_none {l : List Char} (h : occursSub routeTag l = false) :
    routeMatch l = none := scanFor_eq_none routeTag tryRoute l h

/-! Lemmas about the discovery pass. -/

theorem findHandlersPhase_error {files : List SrcFile} {msg : String}
    (h : SrcFile.bad msg ∈ files) : ∃ e, findHandlersPhase files = Except.error e := by
  induction files with
  | nil => exact absurd h (List.not_mem_nil _)
  | cons f rest ih =>
    cases f with
    | bad m => exact ⟨m, rfl⟩
    | ok g =>
      have h2 : SrcFile.bad msg ∈ rest := by
        cases List.mem_cons.mp h with
        | inl hl => exact absurd hl (fun hc => SrcFile.noConfusion hc)
        | inr hr => exact hr
      obtain ⟨e, he⟩ := ih h2
      exact ⟨e, by simp only [findHandlersPhase, he]⟩

theorem findHandlersPhase_mem {files : List SrcFile} :
    ∀ {rs : List Route}, findHandlersPhase files = Except.ok rs →
      ∀ r ∈ rs, ∃ fd, routeOfFuncDecl fd = some r := by
  induction files with
  | nil =>
    intro rs h
    have h2 : ([] : List Route) = rs := Except.ok.inj h
    rw [← h2]
    intro r hr
    exact absurd hr (List.not_mem_nil r)
  | cons f rest ih =>
    intro rs h
    cases f with
    | bad m => exact absurd h Except.noConfusion
    | ok g =>
      simp only [findHandlersPhase] at h
      split at h
      · rename_i rs0 heq
        have h2 := Except.ok.inj h
        rw [← h2]
        intro r hr
        cases List.mem_append.mp hr with
        | inl hl =>
          obtain ⟨fd, _, hfd⟩ := List.mem_filterMap.mp hl
          exact ⟨fd, hfd⟩
        | inr hrr => exact ih heq r hrr
      · exact absurd h Except.noConfusion

theorem findHandlersPhase_stub_none {files : List SrcFile} {rs : List Route}
    (h : findHandlersPhase files = Except.ok rs) : ∀ r ∈ rs, r.requestBody = none := by
  intro r hr
  obtain ⟨fd, hfd⟩ := findHandlersPhase_mem h r hr
  exact routeOfFuncDecl_requestBody hfd

theorem findHandlersPhase_allok (files : List GoFile) :
    findHandlersPhase (files.map SrcFile.ok) =
      Except.ok (files.foldr (fun f acc => findHandlersFile f ++ acc) []) := by
  induction files with
  | nil => rfl
  | cons f rest ih => simp only [List.map_cons, findHandlersPhase, ih, List.foldr_cons]

/-! Lemmas about struct resolution. -/

theorem parseStructFromFile_eq_none {f : GoFile} {T : String}
    (h : ∀ ts ∈ f.typeSpecs, tsMatches T ts = false) :
    parseStructFromFile f T = none := by
  unfold parseStructFromFile
  rw [List.find?_eq_none.mpr (fun ts hts => by rw [h ts hts]; exact Bool.false_ne_true)]

theorem findStruct_not_found {files : List GoFile} {T : String}
    (h : ∀ f ∈ files, ∀ ts ∈ f.typeSpecs, tsMatches T ts = false) :
    findStruct (files.map SrcFile.ok) T = Except.ok none := by
  induction files with
  | nil => rfl
  | cons f rest ih =>
    simp only [List.map_cons, findStruct]
    rw [parseStructFromFile_eq_none (h f (List.mem_cons_self f rest))]
    exact ih (fun g hg ts hts => h g (List.mem_cons_of_mem f hg) ts hts)

theorem findStruct_allok (files : List GoFile) (T : String) :
    ∃ v, findStruct (files.map SrcFile.ok) T = Except.ok v := by
  induction files with
  | nil => exact ⟨none, rfl⟩
  | cons f rest ih =>
    cases hp : parseStructFromFile f T with
    | some rb => exact ⟨some rb, by simp only [List.map_cons, findStruct, hp]⟩
    | none =>
      obtain ⟨v, hv⟩ := ih
      exact ⟨v, by simp only [List.map_cons, findStruct, hp, hv]⟩

/-! Lemmas about the assembly pass. -/

theorem assembleRoutes_sound {files : List SrcFile} :
    ∀ {routes out : List Route} {log : List String},
      assembleRoutes files routes = Except.ok (out, log) →
      ∀ r1 ∈ out, ∃ r0, r0 ∈ routes ∧
        r1.method = r0.method ∧ r1.path = r0.path ∧ r1.bodyType = r0.bodyType ∧
        (r0.bodyType = ("") → r1 = r0) ∧
        (r0.bodyType ≠ ("") → ∃ rb, findStruct files r0.bodyType = Except.ok rb ∧
          r1.requestBody = (match rb with | some b => some b | none => r0.requestBody)) := by
  intro routes
  induction routes with
  | nil =>
    intro out log h r1 hr1
    have h2 : (([] : List Route), ([] : List String)) = (out, log) := Except.ok.inj h
    rw [Prod.mk.injEq] at h2
    rw [← h2.1] at hr1
    exact absurd hr1 (List.not_mem_nil r1)
  | cons r rs ih =>
    intro out log h r1 hr1
    simp only [assembleRoutes] at h
    by_cases hb : r.bodyType = ("")
    · rw [if_pos hb] at h
      cases heq : assembleRoutes files rs with
      | error e => rw [heq] at h; exact absurd h Except.noConfusion
      | ok ol =>
        obtain ⟨o, l⟩ := ol
        rw [heq] at h
        have h2 : (r :: o, l) = (out, log) := Except.ok.inj h
        rw [Prod.mk.injEq] at h2
        rw [← h2.1] at hr1
        cases List.mem_cons.mp hr1 with
        | inl hl =>
          refine ⟨r, List.mem_cons_self r rs, ?_⟩
          rw [hl]
          exact ⟨rfl, rfl, rfl, fun _ => rfl, fun hc => absurd hb hc⟩
        | inr hrr =>
          obtain ⟨r0, hr0, hrest⟩ := ih heq r1 hrr
          exact ⟨r0, List.mem_cons_of_mem r hr0, hrest⟩
    · rw [if_neg hb] at h
      cases hfs : findStruct files r.bodyType with
      | error e => rw [hfs] at h; exact absurd h Except.noConfusion
      | ok rb =>
        rw [hfs] at h
        cases heq : assembleRoutes files rs with
        | error e => rw [heq] at h; exact absurd h Except.noConfusion
        | ok ol =>
          obtain ⟨o, l⟩ := ol
          rw [heq] at h
          injection h with h2
          rw [Prod.mk.injEq] at h2
          rw [← h2.1] at hr1
          cases List.mem_cons.mp hr1 with
          | inl hl =>
            refine ⟨r, List.mem_cons_self r rs, ?_⟩
            rw [hl]
            refine ⟨?_, ?_, ?_, fun hc => absurd hc hb, fun _ => ⟨rb, hfs, ?_⟩⟩
            · cases rb <;> rfl
            · cases rb <;> rfl
            · cases rb <;> rfl
            · cases rb <;> rfl
          | inr hrr =>
            obtain ⟨r0, hr0, hrest⟩ := ih heq r1 hrr
            exact ⟨r0, List.mem_cons_of_mem r hr0, hrest⟩

theorem assembleRoutes_length {files : List SrcFile} :
    ∀ {routes out : List Route} {log : List String},
      assembleRoutes files routes = Except.ok (out, log) →
      out.length = routes.length := by
  intro routes
  induction routes with
  | nil =>
    intro out log h
    have h2 : (([] : List Route), ([] : List String)) = (out, log) := Except.ok.inj h
    rw [Prod.mk.injEq] at h2
    rw [← h2.1]
  | cons r rs ih =>
    intro out log h
    simp only [assembleRoutes] at h
    by_cases hb : r.bodyType = ("")
    · rw [if_pos hb] at h
      cases heq : assembleRoutes files rs with
      | error e => rw [heq] at h; exact absurd h Except.noConfusion
      | ok ol =>
        obtain ⟨o, l⟩ := ol
        rw [heq] at h
        have h2 : (r :: o, l) = (out, log) := Except.ok.inj h
        rw [Prod.mk.injEq] at h2
        rw [← h2.1, List.length_cons, ih heq, List.length_cons]
    · rw [if_neg hb] at h
      cases hfs : findStruct files r.bodyType with
      | error e => rw [hfs] at h; exact absurd h Except.noConfusion
      | ok rb =>
        rw [hfs] at h
        cases heq : assembleRoutes files rs with
        | error e => rw [heq] at h; exact absurd h Except.noConfusion
        | ok ol =>
          obtain ⟨o, l⟩ := ol
          rw [heq] at h
          injection h with h2
          rw [Prod.mk.injEq] at h2
          rw [← h2.1, List.length_cons, ih heq, List.length_cons]

theorem assembleRoutes_count {files : List SrcFile} {T : String} (hT : T ≠ ("")) :
    ∀ {routes out : List Route} {log : List String},
      assembleRoutes files routes = Except.ok (out, log) →
      log.count T = routes.countP (fun r => r.bodyType == T) := by
  intro routes
  induction routes with
  | nil =>
    intro out log h
    have h2 : (([] : List Route), ([] : List String)) = (out, log) := Except.ok.inj h
    rw [Prod.mk.injEq] at h2
    rw [← h2.2, List.countP_nil]
    rfl
  | cons r rs ih =>
    intro out log h
    simp only [assembleRoutes] at h
    by_cases hb : r.bodyType = ("")
    · rw [if_pos hb] at h
      cases heq : assembleRoutes files rs with
      | error e => rw [heq] at h; exact absurd h Except.noConfusion
      | ok ol =>
        obtain ⟨o, l⟩ := ol
        rw [heq] at h
        have h2 : (r :: o, l) = (out, log) := Except.ok.inj h
        rw [Prod.mk.injEq] at h2
        have hP : (r.bodyType == T) = false := by
          rw [hb]
          exact beq_false_of_ne (fun hc => hT hc.symm)
        rw [← h2.2, List.countP_cons, hP, ih heq]
        rfl
    · rw [if_neg hb] at h
      cases hfs : findStruct files r.bodyType with
      | error e => rw [hfs] at h; exact absurd h Except.noConfusion
      | ok rb =>
        rw [hfs] at h
        cases heq : assembleRoutes files rs with
        | error e => rw [heq] at h; exact absurd h Except.noConfusion
        | ok ol =>
          obtain ⟨o, l⟩ := ol
          rw [heq] at h
          injection h with h2
          rw [Prod.mk.injEq] at h2
          rw [← h2.2, List.count_cons, List.countP_cons, ih heq]

theorem assembleRoutes_allok (files : List GoFile) :
    ∀ routes : List Route, ∃ out log,
      assembleRoutes (files.map SrcFile.ok) routes = Except.ok (out, log) := by
  intro routes
  induction routes with
  | nil => exact ⟨[], [], rfl⟩
  | cons r rs ih =>
    obtain ⟨out, log, hol⟩ := ih
    by_cases hb : r.bodyType = ("")
    · exact ⟨r :: out, log, by simp only [assembleRoutes, if_pos hb, hol]⟩
    · obtain ⟨rb, hrb⟩ := findStruct_allok files r.bodyType
      cases rb with
      | some b =>
        exact ⟨{ r with requestBody := some b } :: out, r.bodyType :: log,
          by simp only [assembleRoutes, if_neg hb, hrb, hol]⟩
      | none =>
        exact ⟨r :: out, r.bodyType :: log,
          by simp only [assembleRoutes, if_neg hb, hrb, hol]⟩

/-- A route stub builder applied to a declaration with a doc comment whose route
entry is empty yields no stub. -/
theorem routeOfFuncDecl_eq_none {fd : FuncDecl} {doc : List (List Char)}
    (hdoc : fd.doc = some doc)
    (hroute : (extractAnnotations doc).route = none) : routeOfFuncDecl fd = none := by
  obtain ⟨nm, d⟩ := fd
  have hd : d = some doc := hdoc
  subst hd
  simp only [routeOfFuncDecl, hroute]

/-! Shared concrete example: one parsed file holding two annotated handlers that
share the body type TypeX, and the struct definition of TypeX. -/

def exFile : GoFile :=
  { funcs :=
      [ { name := ("HandlerA"), doc := some [("// @route POST /a").toList, ("// @body TypeX").toList] },
        { name := ("HandlerB"), doc := some [("// @route GET /b").toList, ("// @body TypeX").toList] } ],
    typeSpecs :=
      [ { name := ("TypeX"),
          body := TypeSpecBody.structBody
            [ { names := [("F")], fieldType := FieldTypeExpr.ident ("string"), tag := none, doc := none } ] } ] }

def exFiles : List SrcFile := [SrcFile.ok exFile]

def exRoutes : List Route :=
  match findHandlersPhase exFiles with
  | Except.ok rs => rs
  | Except.error _ => []

def exOut : List Route × List String :=
  match assembleRoutes exFiles exRoutes with
  | Except.ok ol => ol
  | Except.error _ => ([], [])

/-- C1 counterexample: on a run where two distinct routes both reference body
type TypeX, the resolver invocation log for TypeX has length two, so FindStruct
is not invoked exactly once for that type name. -/
theorem c1_counterexample :
    exRoutes.map (fun r => r.path) = [("/a"), ("/b")] ∧
    exRoutes.countP (fun r => r.bodyType == ("TypeX")) = 2 ∧
    exOut.2.count ("TypeX") = 2 ∧ ¬ exOut.2.count ("TypeX") = 1 :=
  ⟨rfl, rfl, rfl, by decide⟩

/-- C1 (amended): the Type Schema Resolver is invoked once per route carrying a
nonempty body type name, so k times when k routes share the name, and every
route sharing that name receives the resolver result for it, hence deep-equal
BodySchema values. -/
theorem c1_resolver_once_per_route (files : List SrcFile) (routes out : List Route)
    (log : List String) (T : String) (hT : T ≠ (""))
    (h1 : findHandlersPhase files = Except.ok routes)
    (h2 : assembleRoutes files routes = Except.ok (out, log)) :
    log.count T = routes.countP (fun r => r.bodyType == T) ∧
    ∀ r ∈ out, r.bodyType = T → findStruct files T = Except.ok r.requestBody := by
  refine ⟨assembleRoutes_count hT h2, ?_⟩
  intro r hr hbt
  obtain ⟨r0, hr0, _, _, hbteq, hempty, hnonempty⟩ := assembleRoutes_sound h2 r hr
  have hstub : r0.requestBody = none := findHandlersPhase_stub_none h1 r0 hr0
  by_cases hb : r0.bodyType = ("")
  · exfalso
    rw [hbt, hb] at hbteq
    exact hT hbteq
  · obtain ⟨rb, hfs, hreq⟩ := hnonempty hb
    rw [← hbteq, hbt] at hfs
    cases rb with
    | some b =>
      rw [hreq]
      exact hfs
    | none =>
      have hrn : r.requestBody = none := by rw [hreq]; exact hstub
      rw [hrn]
      exact hfs

theorem c1_resolver_once_per_route_witness :
    (("TypeX") : String) ≠ ("") ∧
    findHandlersPhase exFiles = Except.ok exRoutes ∧
    assembleRoutes exFiles exRoutes = Except.ok (exOut.1, exOut.2) ∧
    (exOut.2.count ("TypeX") = exRoutes.countP (fun r => r.bodyType == ("TypeX")) ∧
     ∀ r ∈ exOut.1, r.bodyType = ("TypeX") → findStruct exFiles ("TypeX") = Except.ok r.requestBody) :=
  ⟨by decide, rfl, rfl,
    c1_resolver_once_per_route exFiles exRoutes exOut.1 exOut.2 ("TypeX") (by decide) rfl rfl⟩

/-- C4: when a body type name has no matching struct definition anywhere in the
tree, resolution returns the not-found value rather than an error, the owning
routes keep a null request body, no fatal error is raised, and assembly emits
the full route list. -/
theorem c4_missing_type_recoverable (files : List GoFile) (T : String)
    (h : ∀ f ∈ files, ∀ ts ∈ f.typeSpecs, tsMatches T ts = false) :
    findStruct (files.map SrcFile.ok) T = Except.ok none ∧
    ∃ routes out, findHandlersPhase (files.map SrcFile.ok) = Except.ok routes ∧
      parseDirectory (files.map SrcFile.ok) = Except.ok out ∧
      out.length = routes.length ∧
      ∀ r ∈ out, r.bodyType = T → r.requestBody = none := by
  have hnf := findStruct_not_found h
  refine ⟨hnf, ?_⟩
  have hphase := findHandlersPhase_allok files
  obtain ⟨out, log, hasm⟩ := assembleRoutes_allok files
    (files.foldr (fun f acc => findHandlersFile f ++ acc) [])
  refine ⟨_, out, hphase, ?_, assembleRoutes_length hasm, ?_⟩
  · simp only [parseDirectory, hphase, hasm]
  · intro r hr hbt
    obtain ⟨r0, hr0, _, _, hbteq, hempty, hnonempty⟩ := assembleRoutes_sound hasm r hr
    have hstub : r0.requestBody = none := findHandlersPhase_stub_none hphase r0 hr0
    by_cases hb : r0.bodyType = ("")
    · rw [hempty hb]
      exact hstub
    · obtain ⟨rb, hfs, hreq⟩ := hnonempty hb
      rw [← hbteq, hbt] at hfs
      rw [hnf] at hfs
      injection hfs with hrb
      rw [← hrb] at hreq
      rw [hreq]
      exact hstub

def c4File : GoFile :=
  { funcs := [ { name := ("HandlerC"),
                 doc := some [("// @route DELETE /c").toList, ("// @body Missing").toList] } ],
    typeSpecs := [] }

theorem c4_missing_type_recoverable_witness :
    (∀ f ∈ [c4File], ∀ ts ∈ f.typeSpecs, tsMatches ("Missing") ts = false) ∧
    (findStruct ([c4File].map SrcFile.ok) ("Missing") = Except.ok none ∧
     ∃ routes out, findHandlersPhase ([c4File].map SrcFile.ok) = Except.ok routes ∧
       parseDirectory ([c4File].map SrcFile.ok) = Except.ok out ∧
       out.length = routes.length ∧
       ∀ r ∈ out, r.bodyType = ("Missing") → r.requestBody = none) :=
  ⟨by decide, c4_missing_type_recoverable [c4File] ("Missing") (by decide)⟩

/-- C6: if any source file of the tree fails to parse, the entire run aborts
with a fatal error and no route list is produced. -/
theorem c6_parse_failure_aborts (files : List SrcFile) (msg : String)
    (h : SrcFile.bad msg ∈ files) :
    ∃ e, parseDirectory files = Except.error e := by
  obtain ⟨e, he⟩ := findHandlersPhase_error h
  exact ⟨e, by simp only [parseDirectory, he]⟩

def c6Files : List SrcFile :=
  [SrcFile.ok { funcs := [], typeSpecs := [] },
   SrcFile.bad ("expected declaration, found soup")]

theorem c6_parse_failure_aborts_witness :
    SrcFile.bad ("expected declaration, found soup") ∈ c6Files ∧
    ∃ e, parseDirectory c6Files = Except.error e :=
  ⟨by decide, c6_parse_failure_aborts c6Files ("expected declaration, found soup") (by decide)⟩

/-- C7: a function declaration whose doc comment contains no occurrence of the
route tag produces no route stub; it is silently skipped by the discoverer. -/
theorem c7_no_route_tag_no_stub (fd : FuncDecl) (doc : List (List Char))
    (hdoc : fd.doc = some doc)
    (h : ∀ l ∈ doc, occursSub routeTag l = false) :
    routeOfFuncDecl fd = none := by
  refine routeOfFuncDecl_eq_none hdoc ?_
  unfold extractAnnotations
  rw [foldl_route_unchanged doc _ (fun l hl => routeMatch_eq_none (h l hl))]

def c7Decl : FuncDecl :=
  { name := ("helperFunc"), doc := some [("// this helper has no tags at all").toList] }

theorem c7_no_route_tag_no_stub_witness :
    c7Decl.doc = some [("// this helper has no tags at all").toList] ∧
    (∀ l ∈ [("// this helper has no tags at all").toList], occursSub routeTag l = false) ∧
    routeOfFuncDecl c7Decl = none :=
  ⟨rfl, by decide, c7_no_route_tag_no_stub c7Decl _ rfl (by decide)⟩

/-- C9: every route emitted by the pipeline carries both a nonempty method and a
nonempty path; no partially populated route is ever produced. -/
theorem c9_routes_fully_populated (files : List SrcFile) (out : List Route)
    (h : parseDirectory files = Except.ok out) :
    ∀ r ∈ out, r.method ≠ ("") ∧ r.path ≠ ("") := by
  intro r hr
  unfold parseDirectory at h
  cases hphase : findHandlersPhase files with
  | error e => simp only [hphase] at h; exact absurd h Except.noConfusion
  | ok routes =>
    simp only [hphase] at h
    cases hasm : assembleRoutes files routes with
    | error e => simp only [hasm] at h; exact absurd h Except.noConfusion
    | ok ol =>
      obtain ⟨o, l⟩ := ol
      simp only [hasm] at h
      injection h with h2
      rw [← h2] at hr
      obtain ⟨r0, hr0, hm, hp, _⟩ := assembleRoutes_sound hasm r hr
      obtain ⟨fd, hfd⟩ := findHandlersPhase_mem hphase r0 hr0
      have h3 := routeOfFuncDecl_method_path hfd
      rw [hm, hp]
      exact h3

theorem c9_routes_fully_populated_witness :
    parseDirectory exFiles = Except.ok exOut.1 ∧
    ∀ r ∈ exOut.1, r.method ≠ ("") ∧ r.path ≠ ("") :=
  ⟨rfl, c9_routes_fully_populated exFiles exOut.1 rfl⟩

/-! String lemmas supporting the description extraction analysis. -/

theorem isPrefixOf_cons_false {a c : Char} (p s : List Char) (h : ¬ a = c) :
    ((a :: p).isPrefixOf (c :: s)) = false := by
  show (a == c && p.isPrefixOf s) = false
  rw [beq_false_of_ne h, Bool.false_and]

theorem splitAtSubstr_eq_none {p0 : Char} {prest : List Char} :
    ∀ {l : List Char}, (∀ x ∈ l, ¬ x = p0) → splitAtSubstr (p0 :: prest) l = none := by
  intro l
  induction l with
  | nil => intro _; rfl
  | cons c rest ih =>
    intro h
    have hpf : (p0 :: prest).isPrefixOf (c :: rest) = false :=
      isPrefixOf_cons_false prest rest (fun hc => h c (List.mem_cons_self c rest) hc.symm)
    simp only [splitAtSubstr, hpf, Bool.false_eq_true, if_false]
    rw [ih (fun x hx => h x (List.mem_cons_of_mem c hx))]

theorem isPrefixOf_append_self : ∀ (p r : List Char), p.isPrefixOf (p ++ r) = true := by
  intro p r
  induction p with
  | nil => cases r <;> rfl
  | cons a as ih =>
    show (a == a && as.isPrefixOf (as ++ r)) = true
    rw [beq_self_eq_true, Bool.true_and, ih]

theorem drop_length_append : ∀ (p r : List Char), (p ++ r).drop p.length = r := by
  intro p r
  induction p with
  | nil => rfl
  | cons a as ih => exact ih

theorem splitAtSubstr_append (p0 : Char) (prest : List Char) (t : List Char) :
    ∀ (s : List Char), (∀ x ∈ s, ¬ x = p0) →
      splitAtSubstr (p0 :: prest) (s ++ (p0 :: prest) ++ t) = some (s, t) := by
  intro s
  induction s with
  | nil =>
    intro _
    show splitAtSubstr (p0 :: prest) (p0 :: (prest ++ t)) = some ([], t)
    have hpre : (p0 :: prest).isPrefixOf (p0 :: (prest ++ t)) = true :=
      isPrefixOf_append_self (p0 :: prest) t
    have hdrop : (p0 :: (prest ++ t)).drop (p0 :: prest).length = t :=
      drop_length_append (p0 :: prest) t
    rw [splitAtSubstr, if_pos hpre, hdrop]
  | cons c srest ih =>
    intro h
    show splitAtSubstr (p0 :: prest) (c :: (srest ++ (p0 :: prest) ++ t)) =
      some (c :: srest, t)
    have hpf : (p0 :: prest).isPrefixOf (c :: (srest ++ (p0 :: prest) ++ t)) = false :=
      isPrefixOf_cons_false _ _ (fun hc => h c (List.mem_cons_self c srest) hc.symm)
    rw [splitAtSubstr]
    simp only [hpf, Bool.false_eq_true, if_false]
    rw [ih (fun x hx => h x (List.mem_cons_of_mem c hx))]

theorem indexOfChar_eq_none {ch : Char} :
    ∀ {l : List Char}, (∀ x ∈ l, ¬ x = ch) → indexOfChar ch l = none := by
  intro l
  induction l with
  | nil => intro _; rfl
  | cons d rest ih =>
    intro h
    have hd : (d == ch) = false := beq_false_of_ne (h d (List.mem_cons_self d rest))
    simp only [indexOfChar, hd, Bool.false_eq_true, if_false]
    rw [ih (fun x hx => h x (List.mem_cons_of_mem d hx))]
    rfl

/-! How one description step acts on a tag line and on a continuation line. -/

theorem descStep_tag_line (desc : List Char) (parsing : Bool) (s t : List Char)
    (hs : ∀ x ∈ s, ¬ x = '@') (ht : ∀ x ∈ t, ¬ x = '@') :
    descStep desc parsing (s ++ descriptionTag ++ t) =
      (desc ++ cleanDesc t ++ [nl], true) := by
  have hsplit : splitAtSubstr descriptionTag (s ++ descriptionTag ++ t) = some (s, t) :=
    splitAtSubstr_append '@' (("description").toList) t s hs
  simp only [descStep, hsplit]
  rw [indexOfChar_eq_none ht]

theorem descStep_cont_line (desc : List Char) (l : List Char)
    (hl : ∀ x ∈ l, ¬ x = '@') :
    descStep desc true l = (desc ++ cleanDesc l ++ [nl], true) := by
  have hsplit : splitAtSubstr descriptionTag l = none := splitAtSubstr_eq_none hl
  simp only [descStep, hsplit, if_true]
  rw [indexOfChar_eq_none hl]

/-- Accumulation of the description over at-sign-free continuation lines. -/
theorem foldl_desc (rest : List (List Char)) :
    ∀ st : Annotations × Bool, st.2 = true →
      (∀ l ∈ rest, ∀ x ∈ l, ¬ x = '@') →
      (rest.foldl annotateLine st).1.description =
        st.1.description ++ rest.foldr (fun l acc => cleanDesc l ++ [nl] ++ acc) [] ∧
      (rest.foldl annotateLine st).2 = true := by
  induction rest with
  | nil => intro st hp _; exact ⟨(List.append_nil _).symm, hp⟩
  | cons l rest ih =>
    intro st hp h
    rw [List.foldl_cons, List.foldr_cons]
    have hstep : descStep st.1.description st.2 l =
        (st.1.description ++ cleanDesc l ++ [nl], true) := by
      rw [hp]; exact descStep_cont_line _ _ (h l (List.mem_cons_self l rest))
    have h1 : (annotateLine st l).1.description = st.1.description ++ cleanDesc l ++ [nl] := by
      rw [annotateLine_description, hstep]
    have h2 : (annotateLine st l).2 = true := by
      rw [annotateLine_parsing, hstep]
    obtain ⟨ihd, ihp⟩ := ih (annotateLine st l) h2 (fun x hx => h x (List.mem_cons_of_mem l hx))
    refine ⟨?_, ihp⟩
    rw [ihd, h1]
    simp [List.append_assoc]

/-- C2 (amended): for a doc block whose description body is the tag-line
remainder followed by N continuation lines, none containing an at sign, the
extracted description is each body line with every slash removed and trimmed of
leading and trailing whitespace, joined by and terminated with newline
characters; internal whitespace runs are preserved, not normalized. -/
theorem c2_description_lines (s t : List Char) (rest : List (List Char))
    (hs : ∀ x ∈ s, ¬ x = '@') (ht : ∀ x ∈ t, ¬ x = '@')
    (hrest : ∀ l ∈ rest, ∀ x ∈ l, ¬ x = '@') :
    (extractAnnotations ((s ++ descriptionTag ++ t) :: rest)).description =
      cleanDesc t ++ [nl] ++ rest.foldr (fun l acc => cleanDesc l ++ [nl] ++ acc) [] := by
  unfold extractAnnotations
  rw [List.foldl_cons]
  have h1 : (annotateLine ({ name := none, route := none, body := none, description := [] }, false)
      (s ++ descriptionTag ++ t)).1.description = cleanDesc t ++ [nl] := by
    rw [annotateLine_description]
    show (descStep [] false (s ++ descriptionTag ++ t)).1 = cleanDesc t ++ [nl]
    rw [descStep_tag_line [] false s t hs ht]
    rfl
  have h2 : (annotateLine ({ name := none, route := none, body := none, description := [] }, false)
      (s ++ descriptionTag ++ t)).2 = true := by
    rw [annotateLine_parsing]
    show (descStep [] false (s ++ descriptionTag ++ t)).2 = true
    rw [descStep_tag_line [] false s t hs ht]
  obtain ⟨hd, _⟩ := foldl_desc rest _ h2 hrest
  rw [hd, h1]

theorem c2_description_lines_witness :
    (∀ x ∈ ("// ").toList, ¬ x = '@') ∧
    (∀ x ∈ (" hello").toList, ¬ x = '@') ∧
    (∀ l ∈ [("// world").toList], ∀ x ∈ l, ¬ x = '@') ∧
    (extractAnnotations ((("// ").toList ++ descriptionTag ++ (" hello").toList) ::
        [("// world").toList])).description =
      cleanDesc ((" hello").toList) ++ [nl] ++
        [("// world").toList].foldr (fun l acc => cleanDesc l ++ [nl] ++ acc) [] :=
  ⟨by decide, by decide, by decide,
    c2_description_lines (("// ").toList) ((" hello").toList) [("// world").toList]
      (by decide) (by decide) (by decide)⟩

def c2Doc : List (List Char) :=
  [("// @description hello  world").toList, ("// more").toList]

/-- C2 counterexample: a description spanning two lines is extracted as the two
lines joined by a newline with a trailing newline and an unnormalized internal
double space, not as the lines joined by single spaces with whitespace runs
collapsed as the claim states. -/
theorem c2_counterexample :
    String.mk (extractAnnotations c2Doc).description = ("hello  world\nmore\n") ∧
    ¬ String.mk (extractAnnotations c2Doc).description = ("hello world more") :=
  ⟨rfl, by decide⟩

/-! C3: the semantic type computation. -/

/-- The semantic type mapping as the claim words it: a bare named identifier to
its lowercase name, array and map type expressions to array and map, and
anything else, including qualified (selector) types, to unknown. -/
def semanticTypeClaim : FieldTypeExpr → String
  | FieldTypeExpr.ident n => lowerStr n
  | FieldTypeExpr.arrayType => ("array")
  | FieldTypeExpr.mapType => ("map")
  | FieldTypeExpr.selector _ => ("unknown")
  | FieldTypeExpr.otherType => ("unknown")

def c3Fields : List FieldDecl :=
  [ { names := [("When")], fieldType := FieldTypeExpr.selector ("Time"),
      tag := none, doc := none },
    { names := [("Count")], fieldType := FieldTypeExpr.ident ("MyInt"),
      tag := none, doc := none } ]

def c3File : GoFile :=
  { funcs := [],
    typeSpecs := [ { name := ("T3"), body := TypeSpecBody.structBody c3Fields } ] }

/-- C3 counterexample: a qualified field type yields the selector identifier
Time rather than unknown, and a bare named type yields MyInt verbatim rather
than the lowercase myint, so the claimed mapping disagrees with the resolver. -/
theorem c3_counterexample :
    ((parseStructFromFile c3File ("T3")).map (fun rb => rb.fields.map (fun fb => fb.fieldType))) =
      some [("Time"), ("MyInt")] ∧
    ¬ ([("Time"), ("MyInt")] =
        [semanticTypeClaim (FieldTypeExpr.selector ("Time")),
         semanticTypeClaim (FieldTypeExpr.ident ("MyInt"))]) :=
  ⟨rfl, by decide⟩

/-- C3 (amended): semanticType is computed structurally with names taken
verbatim: a bare identifier maps to its own name, a qualified (selector) type to
its final identifier name, an array type to array, a map type to map, and
anything else to unknown. -/
theorem c3_semantic_type (fld : FieldDecl) (fb : RequestBodyField)
    (h : buildField fld = some fb) :
    fb.fieldType = (match fld.fieldType with
      | FieldTypeExpr.ident n => n
      | FieldTypeExpr.selector s => s
      | FieldTypeExpr.arrayType => ("array")
      | FieldTypeExpr.mapType => ("map")
      | FieldTypeExpr.otherType => ("unknown")) := by
  cases hn : fld.names with
  | nil =>
    unfold buildField at h
    rw [hn] at h
    exact absurd h Option.noConfusion
  | cons n ns =>
    unfold buildField at h
    rw [hn] at h
    have h2 := Option.some.inj h
    rw [← h2]
    cases fld.fieldType <;> rfl

def c3WitnessField : FieldDecl :=
  { names := [("When")], fieldType := FieldTypeExpr.selector ("Time"),
    tag := none, doc := none }

def c3WitnessOut : RequestBodyField :=
  { name := ("When"), fieldType := ("Time"), jsonName := ("When"),
    required := false, description := (""), tags := [] }

theorem c3_semantic_type_witness :
    buildField c3WitnessField = some c3WitnessOut ∧
    c3WitnessOut.fieldType =
      (match c3WitnessField.fieldType with
        | FieldTypeExpr.ident n => n
        | FieldTypeExpr.selector s => s
        | FieldTypeExpr.arrayType => ("array")
        | FieldTypeExpr.mapType => ("map")
        | FieldTypeExpr.otherType => ("unknown")) :=
  ⟨rfl, c3_semantic_type c3WitnessField c3WitnessOut rfl⟩

/-! C5: the default-value mapping of the JSON body section. -/

/-- Writing-through the field fold with an arbitrary accumulator factors
through the write with the empty accumulator. -/
theorem lastFieldFor_acc (k : String) :
    ∀ (fs : List RequestBodyField) (acc : Option RequestBodyField),
      fs.foldl (fun a f => if k = f.jsonName then some f else a) acc =
        (match fs.foldl (fun a f => if k = f.jsonName then some f else a) none with
          | some g => some g
          | none => acc) := by
  intro fs
  induction fs with
  | nil => intro acc; rfl
  | cons f fs ih =>
    intro acc
    rw [List.foldl_cons, List.foldl_cons]
    rw [ih (if k = f.jsonName then some f else acc),
        ih (if k = f.jsonName then some f else none)]
    cases h : fs.foldl (fun a f => if k = f.jsonName then some f else a) none with
    | some g => rfl
    | none =>
      by_cases hk : k = f.jsonName
      · simp [hk]
      · simp [hk]

/-- The map lookup after the body-building fold is the default of the last
field written at that key, or the initial map at that key. -/
theorem body_foldl (k : String) :
    ∀ (fs : List RequestBodyField) (m : String → Option JSONValue),
      (fs.foldl (fun body fld => fun k2 =>
          if k2 = fld.jsonName then some (defaultValue fld.fieldType) else body k2) m) k =
        (match fs.foldl (fun a f => if k = f.jsonName then some f else a) none with
          | some g => some (defaultValue g.fieldType)
          | none => m k) := by
  intro fs
  induction fs with
  | nil => intro m; rfl
  | cons f fs ih =>
    intro m
    rw [List.foldl_cons, List.foldl_cons]
    rw [ih (fun k2 => if k2 = f.jsonName then some (defaultValue f.fieldType) else m k2)]
    rw [lastFieldFor_acc k fs (if k = f.jsonName then some f else none)]
    cases h : fs.foldl (fun a f => if k = f.jsonName then some f else a) none with
    | some g => rfl
    | none =>
      by_cases hk : k = f.jsonName
      · simp [hk]
      · simp [hk]

/-- C5: the body-defaults mapping sends each wire name to the canonical zero
value of the semantic type of the last BodySchema field carrying that wire name
(entries are written in field order, so two fields sharing a wire name resolve
last-one-wins), and the zero-value table maps string to the empty string, the
integer and float aliases to zero, bool to false, array and slice to the empty
sequence, map to the empty mapping, and anything else, unknown included, to
null. -/
theorem c5_body_default_values :
    (∀ (rb : RequestBody) (k : String),
      generateRequestJSONBody rb k =
        (lastFieldFor rb.fields k).map (fun fld => defaultValue fld.fieldType)) ∧
    defaultValue ("string") = JSONValue.str ("") ∧
    (defaultValue ("int") = JSONValue.num 0 ∧ defaultValue ("int64") = JSONValue.num 0 ∧
     defaultValue ("int32") = JSONValue.num 0 ∧ defaultValue ("float64") = JSONValue.num 0 ∧
     defaultValue ("float32") = JSONValue.num 0) ∧
    defaultValue ("bool") = JSONValue.bool false ∧
    (defaultValue ("array") = JSONValue.arr [] ∧ defaultValue ("slice") = JSONValue.arr []) ∧
    defaultValue ("map") = JSONValue.obj [] ∧
    defaultValue ("unknown") = JSONValue.null := by
  refine ⟨?_, rfl, ⟨rfl, rfl, rfl, rfl, rfl⟩, rfl, ⟨rfl, rfl⟩, rfl, rfl⟩
  intro rb k
  unfold generateRequestJSONBody lastFieldFor
  rw [body_foldl k rb.fields (fun _ => none)]
  cases h : rb.fields.foldl (fun a f => if k = f.jsonName then some f else a) none with
  | some g => rfl
  | none => rfl

/-! C8: the wire name computed from the json tag. -/

/-- C8: when the tag pairs carry a json entry whose first comma-delimited
segment is nonempty, the wire name is exactly that segment; when the json entry
is absent or its first segment is empty, the wire name is the declared name. -/
theorem c8_wire_name (fld : FieldDecl) (fb : RequestBodyField)
    (h : buildField fld = some fb) :
    (∀ v, tagLookup fld.tag ("json") = some v →
      (((splitOnChar ',' v.toList).headD [] ≠ [] →
          fb.jsonName = String.mk ((splitOnChar ',' v.toList).headD [])) ∧
       ((splitOnChar ',' v.toList).headD [] = [] → fb.jsonName = fb.name))) ∧
    (tagLookup fld.tag ("json") = none → fb.jsonName = fb.name) := by
  cases hn : fld.names with
  | nil =>
    simp only [buildField, hn] at h
    exact absurd h Option.noConfusion
  | cons n ns =>
    simp only [buildField, hn] at h
    cases hjson : tagLookup fld.tag ("json") with
    | some w =>
      simp only [hjson] at h
      have h3 := Option.some.inj h
      constructor
      · intro v hv
        have hvw : w = v := Option.some.inj hv
        subst hvw
        constructor
        · intro hne
          rw [← h3]
          show (if (splitOnChar ',' w.toList).headD [] ≠ [] then
              String.mk ((splitOnChar ',' w.toList).headD []) else n) =
            String.mk ((splitOnChar ',' w.toList).headD [])
          rw [if_pos hne]
        · intro heq
          rw [← h3]
          show (if (splitOnChar ',' w.toList).headD [] ≠ [] then
              String.mk ((splitOnChar ',' w.toList).headD []) else n) = n
          rw [if_neg (fun hc => hc heq)]
      · intro hnone
        exact absurd hnone Option.noConfusion
    | none =>
      simp only [hjson] at h
      have h3 := Option.some.inj h
      constructor
      · intro v hv
        exact absurd hv Option.noConfusion
      · intro _
        rw [← h3]

def c8Field : FieldDecl :=
  { names := [("Memo")], fieldType := FieldTypeExpr.ident ("string"),
    tag := some [(("json" : String), ("Memo__c,omitempty" : String))], doc := none }

def c8Out : RequestBodyField :=
  { name := ("Memo"), fieldType := ("string"), jsonName := ("Memo__c"),
    required := false, description := (""),
    tags := [(("json" : String), ("Memo__c,omitempty" : String))] }

theorem c8_wire_name_witness :
    buildField c8Field = some c8Out ∧
    ((∀ v, tagLookup c8Field.tag ("json") = some v →
      (((splitOnChar ',' v.toList).headD [] ≠ [] →
          c8Out.jsonName = String.mk ((splitOnChar ',' v.toList).headD [])) ∧
       ((splitOnChar ',' v.toList).headD [] = [] → c8Out.jsonName = c8Out.name))) ∧
     (tagLookup c8Field.tag ("json") = none → c8Out.jsonName = c8Out.name)) :=
  ⟨rfl, c8_wire_name c8Field c8Out rfl⟩

/-! C10: multi-identifier field declarations. -/

/-- C10: a field declaration listing several identifiers over one shared type
produces exactly one field schema, named after the first identifier only; the
remaining identifiers yield no fields. -/
theorem c10_first_name_only (fld : FieldDecl) (n : String) (ns : List String)
    (h : fld.names = n :: ns) :
    (buildField fld).map (fun fb => fb.name) = some n := by
  simp only [buildField, h]
  rfl

def c10Field : FieldDecl :=
  { names := [("Amount"), ("Memo")], fieldType := FieldTypeExpr.ident ("string"),
    tag := none, doc := none }

theorem c10_first_name_only_witness :
    c10Field.names = ("Amount") :: [("Memo")] ∧
    (buildField c10Field).map (fun fb => fb.name) = some ("Amount") :=
  ⟨rfl, c10_first_name_only c10Field ("Amount") [("Memo")] rfl⟩

end Brungo
